import Mathlib

/-!
Shallow embedding of the toydb storage layer and proofs about it.

The write-ahead log (`src/storage/wal.rs`) is complete source code and is
embedded faithfully below: a WAL file is a list of bytes, `append` is state
passing on the file contents, and `replay` parses the byte list exactly as
the Rust loop does.  The LSM engine (`src/storage/engines/lsm.rs`) contains
only empty stubs for the memtable, SSTable and read path; those parts are
modelled from the specification and are marked as such in their doc
comments.  The baseline engine (`src/storage/engines/btree.rs`) is complete
and embedded from the source.
-/

namespace ToyDb

/-- Bytes are modelled as natural numbers below 256, matching Rust `u8`. -/
abbrev Byte := Fin 256

/-- WalEntry from wal.rs: a Put of key and value, or a Delete of a key. -/
inductive WalEntry where
  | put (key value : List Byte)
  | delete (key : List Byte)
deriving DecidableEq

/-- The error outcomes the WAL code can produce, by io ErrorKind:
InvalidInput carries the oversized-entry rejection in append, InvalidData
carries every corruption error during parsing and replay, and unexpectedEof
models a failed read_exact that the code propagates. -/
inductive WalError where
  | invalidInput (msg : String)
  | invalidData (msg : String)
  | unexpectedEof
deriving DecidableEq

namespace Wal

/-- Tag indicating a Put entry (PUT_TAG in wal.rs). -/
def PUT_TAG : Byte := 0

/-- Tag indicating a Delete entry (DELETE_TAG in wal.rs). -/
def DELETE_TAG : Byte := 1

/-- Size of the operation tag byte (TAG_SIZE in wal.rs). -/
def TAG_SIZE : Nat := 1

/-- Size of the length fields (LENGTH_FIELD_SIZE in wal.rs). -/
def LENGTH_FIELD_SIZE : Nat := 4

/-- Maximum size of a single WAL entry, 1 MiB (MAX_ENTRY_SIZE in wal.rs). -/
def MAX_ENTRY_SIZE : Nat := 1 * 1024 * 1024

/-- Little-endian byte encoding of a length cast to u32, modelling the Rust
expression (n as u32).to_le_bytes(). -/
def u32le (n : Nat) : List Byte :=
  [⟨n % 256, by omega⟩, ⟨n / 256 % 256, by omega⟩,
   ⟨n / 65536 % 256, by omega⟩, ⟨n / 16777216 % 256, by omega⟩]

/-- Decoding of four little-endian bytes, modelling u32::from_le_bytes. -/
def fromLeBytes (b0 b1 b2 b3 : Byte) : Nat :=
  b0.val + b1.val * 256 + b2.val * 65536 + b3.val * 16777216

/-- Wal::encoded_size: the encoded size of a WAL entry without the record's
own length field. -/
def encoded_size : WalEntry → Nat
  | .put key value =>
      TAG_SIZE + LENGTH_FIELD_SIZE + key.length + LENGTH_FIELD_SIZE + value.length
  | .delete key =>
      TAG_SIZE + LENGTH_FIELD_SIZE + key.length

/-- Wal::write_entry: the bytes written for one entry, without the record's
own length field. -/
def write_entry : WalEntry → List Byte
  | .put key value =>
      PUT_TAG :: (u32le key.length ++ key ++ u32le value.length ++ value)
  | .delete key =>
      DELETE_TAG :: (u32le key.length ++ key)

/-- The full record Wal::append writes for one accepted entry: the length
field followed by the encoded entry. -/
def record (entry : WalEntry) : List Byte :=
  u32le (encoded_size entry) ++ write_entry entry

/-- Wal::append as state passing on the file contents: the size check comes
first, and only when it passes are the length field and the entry bytes
appended to the file; on rejection the file is returned untouched. -/
def append (file : List Byte) (entry : WalEntry) :
    Except WalError Unit × List Byte :=
  let entry_size := encoded_size entry
  if entry_size > MAX_ENTRY_SIZE then
    (.error (.invalidInput "Entry size exceeds maximum"), file)
  else
    (.ok (), file ++ u32le entry_size ++ write_entry entry)

/-- A sequence of Wal::append calls, stopping at the first failure. -/
def appendAll (file : List Byte) : List WalEntry → Except WalError Unit × List Byte
  | [] => (.ok (), file)
  | e :: es =>
    match append file e with
    | (.ok _, file1) => appendAll file1 es
    | (.error err, file1) => (.error err, file1)

/-- The byte contents of a fresh WAL file after appending a list of entries
that all pass the size check. -/
def encodeAll (entries : List WalEntry) : List Byte :=
  (entries.map record).flatten

/-- Wal::parse_entry: parse a single entry from a record buffer. -/
def parse_entry (buffer : List Byte) : Except WalError WalEntry :=
  match buffer with
  | [] => .error (.invalidData "Entry buffer is empty")
  | tag :: rest =>
    match rest with
    | b0 :: b1 :: b2 :: b3 :: rest2 =>
      let key_len := fromLeBytes b0 b1 b2 b3
      if key_len > rest2.length then
        .error (.invalidData "Entry buffer too short for key")
      else
        let key := rest2.take key_len
        let rest3 := rest2.drop key_len
        if tag = PUT_TAG then
          match rest3 with
          | c0 :: c1 :: c2 :: c3 :: rest4 =>
            let value_len := fromLeBytes c0 c1 c2 c3
            if value_len > rest4.length then
              .error (.invalidData "Entry buffer too short for value")
            else
              .ok (.put key (rest4.take value_len))
          | _ => .error (.invalidData "Entry buffer too short for value length")
        else if tag = DELETE_TAG then
          .ok (.delete key)
        else
          .error (.invalidData "Unknown tag")
    | _ => .error (.invalidData "Entry buffer too short for key length")

/-- The loop body of Wal::replay: read a four-byte length field (fewer than
four bytes left means read_exact reports UnexpectedEof, which the code
catches and turns into a clean stop), validate the length against
MAX_ENTRY_SIZE, read the record body (a short read here is an UnexpectedEof
that the code propagates), parse it and continue. -/
def replayAux (data : List Byte) (acc : List WalEntry) :
    Except WalError (List WalEntry) :=
  match data with
  | b0 :: b1 :: b2 :: b3 :: rest =>
    let entry_length := fromLeBytes b0 b1 b2 b3
    if entry_length > MAX_ENTRY_SIZE then
      .error (.invalidData "Entry length exceeds maximum")
    else if rest.length < entry_length then
      .error .unexpectedEof
    else
      match parse_entry (rest.take entry_length) with
      | .error e => .error e
      | .ok entry => replayAux (rest.drop entry_length) (acc ++ [entry])
  | _ => .ok acc
termination_by data.length
decreasing_by
  simp only [List.length_cons, List.length_drop]
  omega

/-- Wal::replay on the byte contents of a WAL file. -/
def replay (data : List Byte) : Except WalError (List WalEntry) :=
  replayAux data []

end Wal

/-- BTreeStore from btree.rs: the HashMap field modelled by its map
semantics, a partial map from keys to values. -/
def BTreeStore := List Byte → Option (List Byte)

namespace BTreeStore

/-- BTreeStore::new: the empty map. -/
def new : BTreeStore := fun _ => none

/-- BTreeStore::put: HashMap::insert of the key-value pair. -/
def put (m : BTreeStore) (k v : List Byte) : BTreeStore :=
  fun q => if q = k then some v else m q

/-- BTreeStore::get: HashMap::get. -/
def get (m : BTreeStore) (k : List Byte) : Option (List Byte) :=
  m k

/-- BTreeStore::delete: HashMap::remove. -/
def delete (m : BTreeStore) (k : List Byte) : BTreeStore :=
  fun q => if q = k then none else m q

end BTreeStore

/-- Modelled from the spec: a MemTable slot is a live value or a tombstone
(the lsm.rs MemTable stub has no tombstone representation). -/
inductive MemValue where
  | value (v : List Byte)
  | tombstone
deriving DecidableEq

/-- Modelled from the spec: the result of a MemTable or SSTable lookup is
Found(value), Found(Tombstone) or Absent. -/
inductive GetResult where
  | found (v : MemValue)
  | absent
deriving DecidableEq

/-- Modelled from the spec: strict byte-lexicographic order on keys, the
total order the MemTable keeps its keys in. -/
def byteLt : List Byte → List Byte → Bool
  | [], [] => false
  | [], _ :: _ => true
  | _ :: _, [] => false
  | a :: as, b :: bs =>
    if a.val < b.val then true
    else if a.val = b.val then byteLt as bs
    else false

/-- Modelled from the spec: the MemTable is a sorted mapping from key to
value-or-tombstone, kept as an association list in ascending byte order
(the lsm.rs MemTable stub has an unordered map and empty operations). -/
abbrev MemTable := List (List Byte × MemValue)

/-- Modelled from the spec: MemTable insert and insert_tombstone, an upsert
that keeps the list sorted and overwrites any prior entry for the key. -/
def memInsert : MemTable → List Byte → MemValue → MemTable
  | [], k, v => [(k, v)]
  | (k1, v1) :: rest, k, v =>
    if byteLt k k1 then (k, v) :: (k1, v1) :: rest
    else if k = k1 then (k, v) :: rest
    else (k1, v1) :: memInsert rest k v

/-- Modelled from the spec: MemTable get, returning Found(value),
Found(Tombstone) or Absent. -/
def memGet : MemTable → List Byte → GetResult
  | [], _ => .absent
  | (k1, v1) :: rest, k => if k = k1 then .found v1 else memGet rest k

/-- The MemTable invariant from the spec: entries are strictly ascending in
byte-lexicographic key order. -/
def memSorted (t : MemTable) : Prop :=
  t.Pairwise (fun a b => byteLt a.1 b.1 = true)

/-- One insert or tombstone-insert operation against the MemTable. -/
def applyOps (t : MemTable) (ops : List (List Byte × MemValue)) : MemTable :=
  ops.foldl (fun acc op => memInsert acc op.1 op.2) t

/-- Modelled from the spec: an SSTable is an immutable table with a
generation id; its lookup returns Found or Absent (the lsm.rs SSTable stub
has empty operations). -/
structure SSTable where
  generation : Nat
  entries : List (List Byte × MemValue)
deriving DecidableEq

/-- Modelled from the spec: SSTable get. -/
def tableGet (t : SSTable) (k : List Byte) : GetResult :=
  memGet t.entries k

/-- How a Found result decides the engine lookup: a value is returned, a
tombstone means the key is absent. -/
def interpFound : MemValue → Option (List Byte)
  | .value v => some v
  | .tombstone => none

/-- Modelled from the spec: search the SSTables in list order (the engine
keeps them newest generation first); the first Found result decides, and
exhausting all tables yields None. -/
def searchTables : List SSTable → List Byte → Option (List Byte)
  | [], _ => none
  | t :: ts, k =>
    match tableGet t k with
    | .found mv => interpFound mv
    | .absent => searchTables ts k

/-- Modelled from the spec: the LsmStore engine state, with the live
MemTable, the WAL file contents, and the live SSTables kept in strictly
descending generation order. -/
structure LsmState where
  memtable : MemTable
  wal : List Byte
  sstables : List SSTable

/-- The fresh engine state: LsmStore::new. -/
def lsmNew : LsmState :=
  { memtable := [], wal := [], sstables := [] }

/-- Modelled from the spec: LsmStore::put appends a Put entry to the WAL
and, on success, upserts the value into the live MemTable (the flush
threshold is never reached in this model). -/
def lsmPut (s : LsmState) (k v : List Byte) : Except WalError LsmState :=
  match Wal.append s.wal (.put k v) with
  | (.ok _, wal1) =>
      .ok { s with memtable := memInsert s.memtable k (.value v), wal := wal1 }
  | (.error e, _) => .error e

/-- Modelled from the spec: LsmStore::delete appends a Delete entry to the
WAL and, on success, inserts a tombstone into the live MemTable. -/
def lsmDelete (s : LsmState) (k : List Byte) : Except WalError LsmState :=
  match Wal.append s.wal (.delete k) with
  | (.ok _, wal1) =>
      .ok { s with memtable := memInsert s.memtable k .tombstone, wal := wal1 }
  | (.error e, _) => .error e

/-- Modelled from the spec: LsmStore::get checks the live MemTable first; a
found value is returned, a found tombstone means None immediately; only
when the MemTable is silent are the SSTables searched newest to oldest. -/
def lsmGet (s : LsmState) (k : List Byte) : Option (List Byte) :=
  match memGet s.memtable k with
  | .found mv => interpFound mv
  | .absent => searchTables s.sstables k

/-- The key bytes of the string key1 used by the concrete scenario. -/
def key1 : List Byte := [107, 101, 121, 49]

/-- The value bytes of the string value1 used by the concrete scenario. -/
def value1 : List Byte := [118, 97, 108, 117, 101, 49]

/-- The key bytes of the string key2 used by the concrete scenario. -/
def key2 : List Byte := [107, 101, 121, 50]

/-- The value bytes of the string value2 used by the concrete scenario. -/
def value2 : List Byte := [118, 97, 108, 117, 101, 50]

/-- The three entries of the spec's concrete scenario. -/
def demoEntries : List WalEntry :=
  [.put key1 value1, .put key2 value2, .delete key1]

/-- A key of exactly 1 MiB, whose Delete entry encodes to 1 MiB + 5 bytes
and therefore exceeds the WAL entry size bound. -/
def bigKey : List Byte := List.replicate 1048576 0

/-- A Delete entry that exceeds the 1 MiB encoded size bound. -/
def bigEntry : WalEntry := .delete bigKey

/-- An older demo SSTable, generation 1, holding key 1. -/
def demoTableOld : SSTable := { generation := 1, entries := [([1], .value [4])] }

/-- A newer demo SSTable, generation 2, holding only key 3. -/
def demoTableNew : SSTable := { generation := 2, entries := [([3], .value [7])] }

/-- A demo engine state with an empty memtable and two SSTables in
descending generation order. -/
def demoState : LsmState :=
  { memtable := [], wal := [], sstables := [demoTableNew, demoTableOld] }

/-- A demo sequence of MemTable operations: two inserts and a
tombstone-insert, hitting key1 twice and arriving out of key order. -/
def demoOps : List (List Byte × MemValue) :=
  [(key2, .value value2), (key1, .value value1), (key1, .tombstone)]

namespace Wal

theorem encoded_size_delete (key : List Byte) :
    encoded_size (.delete key) = TAG_SIZE + LENGTH_FIELD_SIZE + key.length :=
  rfl

theorem write_entry_length (e : WalEntry) :
    (write_entry e).length = encoded_size e := by
  cases e <;>
    simp [write_entry, encoded_size, u32le, TAG_SIZE, LENGTH_FIELD_SIZE] <;>
    omega

theorem u32le_cons (n : Nat) :
    ∃ b0 b1 b2 b3, u32le n = [b0, b1, b2, b3] ∧
      fromLeBytes b0 b1 b2 b3 = n % 4294967296 := by
  refine ⟨_, _, _, _, rfl, ?_⟩
  simp only [fromLeBytes, u32le]
  omega

theorem replayAux_stop (data : List Byte) (acc : List WalEntry)
    (h : data.length < 4) : replayAux data acc = .ok acc := by
  rw [replayAux.eq_def]
  rcases data with _ | ⟨a, _ | ⟨b, _ | ⟨c, _ | ⟨d, rest⟩⟩⟩⟩ <;>
    first
      | rfl
      | (simp only [List.length_cons] at h; omega)

theorem replayAux_cons (b0 b1 b2 b3 : Byte) (rest : List Byte)
    (acc : List WalEntry) :
    replayAux (b0 :: b1 :: b2 :: b3 :: rest) acc =
      (if fromLeBytes b0 b1 b2 b3 > MAX_ENTRY_SIZE then
        .error (.invalidData "Entry length exceeds maximum")
      else if rest.length < fromLeBytes b0 b1 b2 b3 then
        .error .unexpectedEof
      else
        match parse_entry (rest.take (fromLeBytes b0 b1 b2 b3)) with
        | .error e => .error e
        | .ok entry =>
            replayAux (rest.drop (fromLeBytes b0 b1 b2 b3)) (acc ++ [entry])) := by
  rw [replayAux.eq_def]

theorem parse_entry_put (key value : List Byte)
    (hk : key.length < 4294967296) (hv : value.length < 4294967296) :
    parse_entry (write_entry (.put key value)) = .ok (.put key value) := by
  obtain ⟨b0, b1, b2, b3, hu, hf⟩ := u32le_cons key.length
  obtain ⟨c0, c1, c2, c3, hu2, hf2⟩ := u32le_cons value.length
  rw [Nat.mod_eq_of_lt hk] at hf
  rw [Nat.mod_eq_of_lt hv] at hf2
  rw [write_entry, hu, hu2]
  simp only [List.cons_append, List.append_assoc, List.nil_append]
  rw [parse_entry]
  simp only [hf]
  rw [if_neg (by simp only [List.length_append, List.length_cons]; omega)]
  rw [List.take_left, List.drop_left]
  simp [hf2, List.take_length]

theorem parse_entry_delete (key : List Byte) (hk : key.length < 4294967296) :
    parse_entry (write_entry (.delete key)) = .ok (.delete key) := by
  obtain ⟨b0, b1, b2, b3, hu, hf⟩ := u32le_cons key.length
  rw [Nat.mod_eq_of_lt hk] at hf
  rw [write_entry, hu]
  simp only [List.cons_append, List.append_assoc, List.nil_append]
  rw [parse_entry]
  simp only [hf]
  rw [if_neg (by omega)]
  rw [if_neg (by simp [PUT_TAG, DELETE_TAG])]
  simp [List.take_length]

theorem parse_write_entry (e : WalEntry)
    (hsz : encoded_size e ≤ MAX_ENTRY_SIZE) :
    parse_entry (write_entry e) = .ok e := by
  cases e with
  | put key value =>
    refine parse_entry_put key value ?_ ?_ <;>
      (simp [encoded_size, TAG_SIZE, LENGTH_FIELD_SIZE, MAX_ENTRY_SIZE] at hsz;
       omega)
  | delete key =>
    refine parse_entry_delete key ?_
    simp [encoded_size, TAG_SIZE, LENGTH_FIELD_SIZE, MAX_ENTRY_SIZE] at hsz
    omega

theorem replayAux_record (e : WalEntry) (t : List Byte) (acc : List WalEntry)
    (hsz : encoded_size e ≤ MAX_ENTRY_SIZE) :
    replayAux (record e ++ t) acc = replayAux t (acc ++ [e]) := by
  obtain ⟨b0, b1, b2, b3, hu, hf⟩ := u32le_cons (encoded_size e)
  have hs32 : encoded_size e % 4294967296 = encoded_size e :=
    Nat.mod_eq_of_lt (by simp [MAX_ENTRY_SIZE] at hsz; omega)
  rw [hs32] at hf
  rw [record, hu]
  simp only [List.cons_append, List.append_assoc, List.nil_append]
  rw [replayAux_cons, hf]
  rw [if_neg (by simp [MAX_ENTRY_SIZE] at hsz ⊢; omega)]
  rw [if_neg (by simp [List.length_append, write_entry_length]; try omega)]
  rw [List.take_left' (write_entry_length e), List.drop_left' (write_entry_length e)]
  rw [parse_write_entry e hsz]

theorem replayAux_encodeAll (entries : List WalEntry) (t : List Byte)
    (acc : List WalEntry)
    (h : ∀ e ∈ entries, encoded_size e ≤ MAX_ENTRY_SIZE) :
    replayAux (encodeAll entries ++ t) acc = replayAux t (acc ++ entries) := by
  induction entries generalizing acc with
  | nil => simp [encodeAll]
  | cons e es ih =>
    have he : encoded_size e ≤ MAX_ENTRY_SIZE := h e (by simp)
    rw [encodeAll, List.map_cons, List.flatten_cons, List.append_assoc]
    rw [replayAux_record e _ acc he]
    rw [show (es.map record).flatten = encodeAll es from rfl]
    rw [ih _ (fun x hx => h x (List.mem_cons_of_mem e hx))]
    simp

theorem appendAll_ok (entries : List WalEntry) (file file2 : List Byte)
    (h : appendAll file entries = (.ok (), file2)) :
    file2 = file ++ encodeAll entries ∧
      ∀ e ∈ entries, encoded_size e ≤ MAX_ENTRY_SIZE := by
  induction entries generalizing file with
  | nil =>
    simp [appendAll] at h
    simp [encodeAll, h]
  | cons e es ih =>
    rw [appendAll] at h
    by_cases hs : encoded_size e > MAX_ENTRY_SIZE
    · rw [append, if_pos hs] at h
      simp at h
    · rw [append, if_neg hs] at h
      simp only at h
      obtain ⟨h2, h3⟩ := ih _ h
      subst h2
      refine ⟨?_, ?_⟩
      · simp [encodeAll, record, List.append_assoc]
      · intro x hx
        rcases List.mem_cons.mp hx with hx | hx
        · subst hx; omega
        · exact h3 x hx

end Wal

theorem byteLt_irrefl (a : List Byte) : byteLt a a = false := by
  induction a with
  | nil => rfl
  | cons x xs ih => simp [byteLt, ih]

theorem byteLt_cons {x y : Byte} {xs ys : List Byte} :
    byteLt (x :: xs) (y :: ys) = true ↔
      x.val < y.val ∨ (x.val = y.val ∧ byteLt xs ys = true) := by
  simp only [byteLt]
  by_cases h1 : x.val < y.val
  · rw [if_pos h1]; simp [h1]
  · rw [if_neg h1]
    by_cases h2 : x.val = y.val
    · rw [if_pos h2]; simp [h1, h2]
    · rw [if_neg h2]; simp [h1, h2]

theorem byteLt_trans {a b c : List Byte} (h1 : byteLt a b = true)
    (h2 : byteLt b c = true) : byteLt a c = true := by
  induction a generalizing b c with
  | nil =>
    cases b with
    | nil => simp [byteLt] at h1
    | cons y ys =>
      cases c with
      | nil => simp [byteLt] at h2
      | cons z zs => simp [byteLt]
  | cons x xs ih =>
    cases b with
    | nil => simp [byteLt] at h1
    | cons y ys =>
      cases c with
      | nil => simp [byteLt] at h2
      | cons z zs =>
        rw [byteLt_cons] at h1 h2 ⊢
        rcases h1 with h1 | ⟨e1, h1⟩ <;> rcases h2 with h2 | ⟨e2, h2⟩
        · left; omega
        · left; omega
        · left; omega
        · right; exact ⟨by omega, ih h1 h2⟩

theorem byteLt_total {a b : List Byte} (h : a ≠ b) :
    byteLt a b = true ∨ byteLt b a = true := by
  induction a generalizing b with
  | nil =>
    cases b with
    | nil => exact absurd rfl h
    | cons y ys => left; rfl
  | cons x xs ih =>
    cases b with
    | nil => right; rfl
    | cons y ys =>
      by_cases hv : x.val = y.val
      · have hx : x = y := Fin.val_injective hv
        subst hx
        have hne : xs ≠ ys := fun hh => h (by rw [hh])
        rcases ih hne with h1 | h1
        · left; simp [byteLt, h1]
        · right; simp [byteLt, h1]
      · rcases Nat.lt_or_ge x.val y.val with hlt | hge
        · left; simp [byteLt, hlt]
        · right; simp only [byteLt]
          rw [if_pos (by omega)]

theorem memGet_memInsert (t : MemTable) (k : List Byte) (v : MemValue) :
    memGet (memInsert t k v) k = .found v := by
  induction t with
  | nil => simp [memInsert, memGet]
  | cons p rest ih =>
    obtain ⟨k1, v1⟩ := p
    simp only [memInsert]
    by_cases h1 : byteLt k k1 = true
    · rw [if_pos h1]; simp [memGet]
    · rw [if_neg h1]
      by_cases h2 : k = k1
      · rw [if_pos h2]; simp [memGet]
      · rw [if_neg h2]; simp [memGet, h2, ih]

theorem mem_keys_memInsert {t : MemTable} {k : List Byte} {v : MemValue}
    {p : List Byte × MemValue} (h : p ∈ memInsert t k v) :
    p.1 = k ∨ p ∈ t := by
  induction t with
  | nil =>
    simp [memInsert] at h
    simp [h]
  | cons q rest ih =>
    obtain ⟨k1, v1⟩ := q
    simp only [memInsert] at h
    by_cases h1 : byteLt k k1 = true
    · rw [if_pos h1] at h
      rcases List.mem_cons.mp h with h | h
      · left; rw [h]
      · right; exact h
    · rw [if_neg h1] at h
      by_cases h2 : k = k1
      · rw [if_pos h2] at h
        rcases List.mem_cons.mp h with h | h
        · left; rw [h]
        · right; exact List.mem_cons_of_mem _ h
      · rw [if_neg h2] at h
        rcases List.mem_cons.mp h with h | h
        · right; rw [h]; exact List.mem_cons_self _ _
        · rcases ih h with h3 | h3
          · left; exact h3
          · right; exact List.mem_cons_of_mem _ h3

theorem memSorted_memInsert {t : MemTable} (k : List Byte) (v : MemValue)
    (h : memSorted t) : memSorted (memInsert t k v) := by
  induction t with
  | nil =>
    simp [memInsert, memSorted]
  | cons q rest ih =>
    obtain ⟨k1, v1⟩ := q
    unfold memSorted at h
    rw [List.pairwise_cons] at h
    obtain ⟨hall, hrest⟩ := h
    simp only [memInsert]
    by_cases h1 : byteLt k k1 = true
    · rw [if_pos h1]
      unfold memSorted
      rw [List.pairwise_cons]
      refine ⟨?_, List.Pairwise.cons hall hrest⟩
      intro p hp
      rcases List.mem_cons.mp hp with hp | hp
      · rw [hp]; exact h1
      · exact byteLt_trans h1 (hall p hp)
    · rw [if_neg h1]
      by_cases h2 : k = k1
      · rw [if_pos h2]
        unfold memSorted
        rw [List.pairwise_cons]
        exact ⟨fun p hp => h2 ▸ hall p hp, hrest⟩
      · rw [if_neg h2]
        unfold memSorted
        rw [List.pairwise_cons]
        constructor
        · intro p hp
          rcases mem_keys_memInsert hp with hp | hp
          · show byteLt k1 p.1 = true
            rw [hp]
            rcases byteLt_total h2 with hh | hh
            · exact absurd hh h1
            · exact hh
          · exact hall p hp
        · exact ih hrest

theorem memSorted_nodup {t : MemTable} (h : memSorted t) :
    (t.map Prod.fst).Nodup := by
  have h2 : (t.map Prod.fst).Pairwise (fun a b => byteLt a b = true) :=
    List.pairwise_map.mpr h
  exact h2.imp (fun hab heq => by
    subst heq
    rw [byteLt_irrefl] at hab
    simp at hab)

theorem applyOps_sorted (ops : List (List Byte × MemValue)) :
    ∀ t, memSorted t → memSorted (applyOps t ops) := by
  induction ops with
  | nil => intro t h; exact h
  | cons op rest ih => intro t h; exact ih _ (memSorted_memInsert op.1 op.2 h)

theorem searchTables_first_found {k : List Byte} {mv : MemValue} :
    ∀ (ts : List SSTable) (t : SSTable),
      ts.Pairwise (fun a b => b.generation < a.generation) →
      t ∈ ts → tableGet t k = .found mv →
      (∀ u ∈ ts, t.generation < u.generation → tableGet u k = .absent) →
      searchTables ts k = interpFound mv := by
  intro ts
  induction ts with
  | nil => intro t _ ht _ _; exact absurd ht (List.not_mem_nil t)
  | cons u us ih =>
    intro t hsort ht hfound habove
    rw [List.pairwise_cons] at hsort
    obtain ⟨hgen, hsort2⟩ := hsort
    rcases List.mem_cons.mp ht with ht | ht
    · subst ht
      rw [searchTables, hfound]
    · have hug : t.generation < u.generation := hgen t ht
      have hu : tableGet u k = .absent :=
        habove u (List.mem_cons_self _ _) hug
      rw [searchTables, hu]
      exact ih t hsort2 ht hfound
        (fun w hw hwg => habove w (List.mem_cons_of_mem _ hw) hwg)

theorem searchTables_all_absent {k : List Byte} :
    ∀ ts : List SSTable, (∀ u ∈ ts, tableGet u k = .absent) →
      searchTables ts k = none := by
  intro ts
  induction ts with
  | nil => intro _; rfl
  | cons u us ih =>
    intro h
    rw [searchTables, h u (List.mem_cons_self _ _)]
    exact ih (fun w hw => h w (List.mem_cons_of_mem _ hw))

theorem lsmPut_memtable {s s1 : LsmState} {k v : List Byte}
    (h : lsmPut s k v = .ok s1) :
    s1.memtable = memInsert s.memtable k (.value v) := by
  rw [lsmPut] at h
  rcases hw : Wal.append s.wal (.put k v) with ⟨r, wal1⟩
  rw [hw] at h
  cases r with
  | ok u => simp at h; rw [← h]
  | error e => simp at h

theorem lsmDelete_memtable {s s1 : LsmState} {k : List Byte}
    (h : lsmDelete s k = .ok s1) :
    s1.memtable = memInsert s.memtable k .tombstone := by
  rw [lsmDelete] at h
  rcases hw : Wal.append s.wal (.delete k) with ⟨r, wal1⟩
  rw [hw] at h
  cases r with
  | ok u => simp at h; rw [← h]
  | error e => simp at h

/-- C1: WAL round-trip — for every sequence of entries successfully appended
via Wal::append to a fresh WAL file, Wal::replay on the resulting file
returns exactly the same sequence of entries in the original append
order. -/
theorem wal_roundtrip (entries : List WalEntry) (file : List Byte)
    (h : Wal.appendAll [] entries = (.ok (), file)) :
    Wal.replay file = .ok entries := by
  obtain ⟨hf, hsz⟩ := Wal.appendAll_ok entries [] file h
  subst hf
  have h2 := Wal.replayAux_encodeAll entries [] [] hsz
  rw [List.append_nil] at h2
  rw [Wal.replay, List.nil_append, h2, Wal.replayAux_stop [] _ (by simp)]
  simp

/-- Witness for C1 at the spec's concrete scenario: put key1 value1, put
key2 value2, delete key1, then replay the backing file. -/
theorem wal_roundtrip_witness :
    Wal.replay (Wal.appendAll [] demoEntries).2 = .ok demoEntries :=
  wal_roundtrip demoEntries (Wal.appendAll [] demoEntries).2 rfl

/-- C2 counterexample: a file holding one valid record followed by a
two-byte truncated length field replays successfully, returning the one
good entry, instead of failing with a corruption error as the claim
states. -/
theorem replay_partial_length_counterexample :
    Wal.replay (Wal.record (.put key1 value1) ++ [7, 7]) =
      .ok [.put key1 value1] := by
  have hsz : ∀ e ∈ [WalEntry.put key1 value1],
      Wal.encoded_size e ≤ Wal.MAX_ENTRY_SIZE := by
    intro e he
    simp at he
    subst he
    decide
  have h2 := Wal.replayAux_encodeAll [.put key1 value1] [7, 7] [] hsz
  rw [Wal.replay,
    show Wal.record (.put key1 value1) ++ [7, 7] =
      Wal.encodeAll [.put key1 value1] ++ [7, 7] by simp [Wal.encodeAll],
    h2, Wal.replayAux_stop _ _ (by simp)]
  simp

/-- C2 amended: during Wal::replay a clean end-of-file at a record boundary
terminates replay successfully, and a truncated trailing length field of
fewer than four bytes is treated the same way — replay succeeds with the
entries read so far and the partial field is silently discarded rather than
reported; only a record body shorter than its declared length makes replay
fail, with the propagated UnexpectedEof read error. -/
theorem replay_truncation (entries : List WalEntry)
    (hsz : ∀ e ∈ entries, Wal.encoded_size e ≤ Wal.MAX_ENTRY_SIZE)
    (p : List Byte) (hp : p.length < 4)
    (len : Nat) (hl : len ≤ Wal.MAX_ENTRY_SIZE) (body : List Byte)
    (hb : body.length < len) :
    Wal.replay (Wal.encodeAll entries) = .ok entries ∧
    Wal.replay (Wal.encodeAll entries ++ p) = .ok entries ∧
    Wal.replay (Wal.encodeAll entries ++ Wal.u32le len ++ body) =
      .error .unexpectedEof := by
  refine ⟨?_, ?_, ?_⟩
  · have h2 := Wal.replayAux_encodeAll entries [] [] hsz
    rw [List.append_nil] at h2
    rw [Wal.replay, h2, Wal.replayAux_stop [] _ (by simp)]
    simp
  · rw [Wal.replay, Wal.replayAux_encodeAll entries p [] hsz,
      Wal.replayAux_stop p _ hp]
    simp
  · obtain ⟨b0, b1, b2, b3, hu, hf⟩ := Wal.u32le_cons len
    have hl32 : len % 4294967296 = len :=
      Nat.mod_eq_of_lt (by simp [Wal.MAX_ENTRY_SIZE] at hl; omega)
    rw [hl32] at hf
    rw [List.append_assoc, Wal.replay,
      Wal.replayAux_encodeAll entries _ [] hsz, hu]
    simp only [List.cons_append, List.nil_append]
    rw [Wal.replayAux_cons, hf]
    rw [if_neg (by omega), if_pos hb]

/-- Witness for C2 as amended, at one valid record, a one-byte truncated
length field, and a record body of one byte against a declared length of
five. -/
theorem replay_truncation_witness :
    Wal.replay (Wal.encodeAll [.put key1 value1]) = .ok [.put key1 value1] ∧
    Wal.replay (Wal.encodeAll [.put key1 value1] ++ [7]) =
      .ok [.put key1 value1] ∧
    Wal.replay (Wal.encodeAll [.put key1 value1] ++ Wal.u32le 5 ++ [0]) =
      .error .unexpectedEof :=
  replay_truncation [.put key1 value1]
    (by intro e he; simp at he; subst he; decide)
    [7] (by decide) 5 (by decide) [0] (by decide)

/-- C3: Wal::append rejects any entry whose encoded size exceeds 1 MiB with
the InvalidInput error the spec names EntryTooLarge, leaving the file bytes
completely untouched; every entry whose encoded size is at most 1 MiB
passes the size check and gets its record appended. -/
theorem append_size_bound (file : List Byte) (e : WalEntry) :
    (Wal.encoded_size e > Wal.MAX_ENTRY_SIZE →
      Wal.append file e =
        (.error (.invalidInput "Entry size exceeds maximum"), file)) ∧
    (Wal.encoded_size e ≤ Wal.MAX_ENTRY_SIZE →
      Wal.append file e = (.ok (), file ++ Wal.record e)) := by
  constructor
  · intro h
    simp only [Wal.append]
    rw [if_pos h]
  · intro h
    simp only [Wal.append]
    rw [if_neg (by omega), Wal.record, List.append_assoc]

/-- Witness for C3: a Delete entry whose key is exactly 1 MiB long is
rejected with the file unchanged, while the small key1 Delete entry is
accepted. -/
theorem append_size_bound_witness :
    Wal.append [] bigEntry =
      (.error (.invalidInput "Entry size exceeds maximum"), []) ∧
    Wal.append [] (.delete key1) = (.ok (), [] ++ Wal.record (.delete key1)) :=
  ⟨(append_size_bound [] bigEntry).1
      (by have hK : bigKey.length = 1048576 := by
            rw [bigKey, List.length_replicate]
          rw [bigEntry, Wal.encoded_size_delete bigKey, hK]
          norm_num [Wal.TAG_SIZE, Wal.LENGTH_FIELD_SIZE, Wal.MAX_ENTRY_SIZE]),
   (append_size_bound [] (.delete key1)).2 (by decide)⟩

/-- C4: each record written by Wal::append has the little-endian layout of
a length field, then the tag byte (0 for Put, 1 for Delete), then the key
length field and the key bytes, then for Put only the value length field
and the value bytes; the leading length field holds the byte length of
everything after itself. -/
theorem wal_record_layout (key value : List Byte) :
    Wal.write_entry (.put key value) =
      (0 : Byte) :: (Wal.u32le key.length ++ key ++
        Wal.u32le value.length ++ value) ∧
    Wal.write_entry (.delete key) =
      (1 : Byte) :: (Wal.u32le key.length ++ key) ∧
    Wal.record (.put key value) =
      Wal.u32le (Wal.write_entry (.put key value)).length ++
        Wal.write_entry (.put key value) ∧
    Wal.record (.delete key) =
      Wal.u32le (Wal.write_entry (.delete key)).length ++
        Wal.write_entry (.delete key) := by
  refine ⟨rfl, rfl, ?_, ?_⟩ <;> rw [Wal.record, Wal.write_entry_length]

/-- C5: during replay a record whose tag byte is neither 0 nor 1 always
fails to parse with an InvalidData corruption error, and every well-formed
record produced by write_entry, with tag 0 or 1, parses back to exactly its
entry. -/
theorem parse_entry_tag_check (tag : Byte) (rest : List Byte) (e : WalEntry)
    (h0 : tag ≠ Wal.PUT_TAG) (h1 : tag ≠ Wal.DELETE_TAG)
    (hsz : Wal.encoded_size e ≤ Wal.MAX_ENTRY_SIZE) :
    (∃ msg, Wal.parse_entry (tag :: rest) = .error (.invalidData msg)) ∧
    Wal.parse_entry (Wal.write_entry e) = .ok e := by
  refine ⟨?_, Wal.parse_write_entry e hsz⟩
  rcases rest with _ | ⟨b0, _ | ⟨b1, _ | ⟨b2, _ | ⟨b3, rest2⟩⟩⟩⟩
  · exact ⟨_, rfl⟩
  · exact ⟨_, rfl⟩
  · exact ⟨_, rfl⟩
  · exact ⟨_, rfl⟩
  · simp only [Wal.parse_entry]
    by_cases hk : Wal.fromLeBytes b0 b1 b2 b3 > rest2.length
    · rw [if_pos hk]
      exact ⟨_, rfl⟩
    · rw [if_neg hk, if_neg h0, if_neg h1]
      exact ⟨_, rfl⟩

/-- Witness for C5 at tag byte 2 and a well-formed Delete record. -/
theorem parse_entry_tag_check_witness :
    (∃ msg, Wal.parse_entry ((2 : Byte) :: Wal.u32le 0) =
      .error (.invalidData msg)) ∧
    Wal.parse_entry (Wal.write_entry (.delete key1)) = .ok (.delete key1) :=
  parse_entry_tag_check 2 (Wal.u32le 0) (.delete key1)
    (by decide) (by decide) (by decide)

/-- C6: the engine read path — get consults the live MemTable first, where a
found value is returned and a found tombstone yields None immediately; only
when the MemTable is silent are the SSTables searched in strictly
descending generation order, the first Found result, value or tombstone,
deciding the outcome, and None returned when no table holds the key. -/
theorem lsm_get_read_path (s : LsmState) (k : List Byte) :
    (∀ v, memGet s.memtable k = .found (.value v) → lsmGet s k = some v) ∧
    (memGet s.memtable k = .found .tombstone → lsmGet s k = none) ∧
    (memGet s.memtable k = .absent →
      (∀ u ∈ s.sstables, tableGet u k = .absent) → lsmGet s k = none) ∧
    (∀ t mv, memGet s.memtable k = .absent →
      s.sstables.Pairwise (fun a b => b.generation < a.generation) →
      t ∈ s.sstables → tableGet t k = .found mv →
      (∀ u ∈ s.sstables, t.generation < u.generation →
        tableGet u k = .absent) →
      lsmGet s k = interpFound mv) := by
  refine ⟨?_, ?_, ?_, ?_⟩
  · intro v h
    rw [lsmGet, h]
    rfl
  · intro h
    rw [lsmGet, h]
    rfl
  · intro h hall
    rw [lsmGet, h]
    exact searchTables_all_absent _ hall
  · intro t mv h hsort ht hf habove
    rw [lsmGet, h]
    exact searchTables_first_found _ t hsort ht hf habove

/-- Witness for C6: a key absent from the MemTable and from the newest
SSTable is served by the older SSTable that holds it. -/
theorem lsm_get_read_path_witness :
    lsmGet demoState [1] = interpFound (.value [4]) :=
  (lsm_get_read_path demoState [1]).2.2.2 demoTableOld (.value [4])
    (by decide) (by decide) (by decide) (by decide) (by decide)

/-- C7: last-write-wins — putting v1 then v2 at the same key and reading the
key back returns v2, in the baseline BTreeStore engine and in the LSM
engine. -/
theorem last_write_wins (m : BTreeStore) (s : LsmState) (k v1 v2 : List Byte) :
    BTreeStore.get (BTreeStore.put (BTreeStore.put m k v1) k v2) k =
      some v2 ∧
    (∀ s1 s2, lsmPut s k v1 = .ok s1 → lsmPut s1 k v2 = .ok s2 →
      lsmGet s2 k = some v2) := by
  constructor
  · simp [BTreeStore.get, BTreeStore.put]
  · intro s1 s2 h1 h2
    have hm := lsmPut_memtable h2
    rw [lsmGet, hm, memGet_memInsert]
    rfl

/-- Witness for C7 at key1 with value1 then value2, from the empty
stores. -/
theorem last_write_wins_witness :
    BTreeStore.get
      (BTreeStore.put (BTreeStore.put BTreeStore.new key1 value1) key1 value2)
      key1 = some value2 ∧
    lsmGet { memtable := [(key1, MemValue.value value2)],
             wal := Wal.record (WalEntry.put key1 value1) ++
               Wal.record (WalEntry.put key1 value2),
             sstables := [] } key1 = some value2 :=
  ⟨(last_write_wins BTreeStore.new lsmNew key1 value1 value2).1,
   (last_write_wins BTreeStore.new lsmNew key1 value1 value2).2
     { memtable := [(key1, MemValue.value value1)],
       wal := Wal.record (WalEntry.put key1 value1), sstables := [] }
     { memtable := [(key1, MemValue.value value2)],
       wal := Wal.record (WalEntry.put key1 value1) ++
         Wal.record (WalEntry.put key1 value2),
       sstables := [] }
     rfl rfl⟩

/-- C8: tombstone precedence — putting a value at a key, deleting the key
and reading it back returns None, in the baseline BTreeStore engine and in
the LSM engine. -/
theorem tombstone_precedence (m : BTreeStore) (s : LsmState) (k v : List Byte) :
    BTreeStore.get (BTreeStore.delete (BTreeStore.put m k v) k) k = none ∧
    (∀ s1 s2, lsmPut s k v = .ok s1 → lsmDelete s1 k = .ok s2 →
      lsmGet s2 k = none) := by
  constructor
  · simp [BTreeStore.get, BTreeStore.delete]
  · intro s1 s2 h1 h2
    have hm := lsmDelete_memtable h2
    rw [lsmGet, hm, memGet_memInsert]
    rfl

/-- Witness for C8 at key1 and value1, from the empty stores. -/
theorem tombstone_precedence_witness :
    BTreeStore.get
      (BTreeStore.delete (BTreeStore.put BTreeStore.new key1 value1) key1)
      key1 = none ∧
    lsmGet { memtable := [(key1, MemValue.tombstone)],
             wal := Wal.record (WalEntry.put key1 value1) ++
               Wal.record (WalEntry.delete key1),
             sstables := [] } key1 = none :=
  ⟨(tombstone_precedence BTreeStore.new lsmNew key1 value1).1,
   (tombstone_precedence BTreeStore.new lsmNew key1 value1).2
     { memtable := [(key1, MemValue.value value1)],
       wal := Wal.record (WalEntry.put key1 value1), sstables := [] }
     { memtable := [(key1, MemValue.tombstone)],
       wal := Wal.record (WalEntry.put key1 value1) ++
         Wal.record (WalEntry.delete key1),
       sstables := [] }
     rfl rfl⟩

/-- C9: after any sequence of insert / tombstone-insert operations applied
to a sorted MemTable, the keys are unique and the mapping is in strictly
ascending byte-lexicographic order, so snapshot iteration yields keys in
ascending byte order. -/
theorem memtable_invariant (t : MemTable) (ops : List (List Byte × MemValue))
    (h : memSorted t) :
    memSorted (applyOps t ops) ∧ ((applyOps t ops).map Prod.fst).Nodup := by
  have hs := applyOps_sorted ops t h
  exact ⟨hs, memSorted_nodup hs⟩

/-- Witness for C9 at a three-operation sequence hitting key1 twice. -/
theorem memtable_invariant_witness :
    memSorted (applyOps [] demoOps) ∧
      ((applyOps [] demoOps).map Prod.fst).Nodup :=
  memtable_invariant [] demoOps List.Pairwise.nil

/-- C10: replay validates each record's declared length before reading the
record body — any length field declaring more than 1 MiB makes replay fail
with the InvalidData corruption error, no matter what bytes follow. -/
theorem replay_oversized_length (entries : List WalEntry)
    (hsz : ∀ e ∈ entries, Wal.encoded_size e ≤ Wal.MAX_ENTRY_SIZE)
    (b0 b1 b2 b3 : Byte) (rest : List Byte)
    (hlen : Wal.fromLeBytes b0 b1 b2 b3 > Wal.MAX_ENTRY_SIZE) :
    Wal.replay (Wal.encodeAll entries ++ b0 :: b1 :: b2 :: b3 :: rest) =
      .error (.invalidData "Entry length exceeds maximum") := by
  rw [Wal.replay, Wal.replayAux_encodeAll entries _ [] hsz]
  rw [Wal.replayAux_cons, if_pos hlen]

/-- Witness for C10: an empty file followed by a length field declaring
1 MiB plus one, with no body at all. -/
theorem replay_oversized_length_witness :
    Wal.replay (Wal.encodeAll [] ++
      (1 : Byte) :: (0 : Byte) :: (16 : Byte) :: (0 : Byte) :: []) =
      .error (.invalidData "Entry length exceeds maximum") :=
  replay_oversized_length [] (by simp) 1 0 16 0 [] (by decide)

end ToyDb
